import Mathlib

/-!
Verification development for the Rust backend of the `lcm-gen` schema
compiler (`src/lcmgen/emit_rust.c`, plus an earlier generation of the same
backend in `src/unnamed/part_000`).

The development shallowly embeds, in Lean:

* the identifier transformer (`strip_underscore_t`, the camel-case loop of
  `make_rust_type_name`, in both generations);
* the composed-fingerprint computation performed by the Rust code emitted by
  `emit_impl_message_hash`, and the final published-fingerprint expression
  `(hash << 1) + ((hash >> 63) & 1)` in 64-bit modular arithmetic;
* the semantics of the marshalling routines synthesized by
  `emit_impl_message_encode`, `emit_impl_message_decode` /
  `emit_impl_message_decode_recursive` and `emit_impl_message_size`:
  the generated Rust is schema-specialized straight-line code, so its meaning
  is captured by schema-directed interpreters over the member list and each
  member's dimension list, parameterized by the leaf (base-type) codecs that
  the generated code invokes at the innermost level.

Machine integers are modelled as `Nat` with explicit `% 2 ^ 64` where 64-bit
wrap-around matters; fallible operations return `Option`.
-/

/-! ## Semantic model (from `lcmgen.h` as used by `emit_rust.c`)

One axis of an array member: `lcm_dimension_t`.  `LCM_CONST` carries a literal
size (the generator reads it back with `sscanf("%d")`, so it is modelled as a
`Nat`); `LCM_VAR` carries the name of the sibling size field. -/
inductive DimMode where
  | constDim (size : Nat)
  | varDim (sizeField : String)
deriving DecidableEq, Repr

/-- One member of a struct (`lcm_member_t`): its name, the fully qualified
name of its base type (`lm->type->lctypename`), and its ordered dimension
list, outermost first. -/
structure LcmMember where
  membername : String
  typename : String
  dims : List DimMode
deriving DecidableEq, Repr

/-- A struct (`lcm_struct_t`): its short name and fully qualified name, its
base hash (`ls->hash`, an opaque 64-bit input computed by the parser), and its
ordered member list. -/
structure LcmStruct where
  shortname : String
  lctypename : String
  hash : Nat
  members : List LcmMember
deriving DecidableEq, Repr

/-- Modelled from the spec: the predicate `lcm_is_primitive_type` lives in
`lcmgen.c`, which is not part of the provided sources; the spec (section 3)
lists the primitive type names, and `map_lcm_primitive` in `emit_rust.c`
enumerates the same set. -/
def lcm_is_primitive_type (t : String) : Bool :=
  t ∈ ["boolean", "byte", "string",
       "int8_t", "int16_t", "int32_t", "int64_t",
       "uint8_t", "uint16_t", "uint32_t", "uint64_t",
       "float", "double"]

/-! ## Fingerprint computation emitted by `emit_impl_message_hash`

The emitted Rust function is

    fn hash() -> u64 {
        let hash = { BASE .wrapping_add(T1::hash()) ... };
        (hash << 1) + ((hash >> 63) & 1)
    }

with one `.wrapping_add(T::hash())` line per member whose base type satisfies
`!lcm_is_primitive_type(tn) && strcmp(tn, self)` (loop at
`emit_rust.c:410-418`).  `env t` models the published hash `T::hash()` of the
struct whose `lctypename` is `t`; `isPrim` abstracts the primitive predicate
so the theorems do not depend on the modelled primitive list. -/

/-- The referenced type name of each member for which the generator emits a
`.wrapping_add` line, in member order (`emit_rust.c:410-418`). -/
def hashTerms (isPrim : String → Bool) (s : LcmStruct) : List String :=
  (s.members.filter
    (fun m => !(isPrim m.typename) && m.typename != s.lctypename)).map
    (fun m => m.typename)

/-- The value of the emitted `let hash = { ... }` block: the struct's base
hash with one 64-bit wrapping add of the referenced type's hash per emitted
line. -/
def composedHash (isPrim : String → Bool) (env : String → Nat)
    (s : LcmStruct) : Nat :=
  (hashTerms isPrim s).foldl (fun h t => (h + env t) % 2 ^ 64)
    (s.hash % 2 ^ 64)

/-- The claim's reading of the composition (spec section 4.2, step 2): each
distinct referenced struct type contributes exactly once, regardless of how
many members use it.  Stated from the spec's words, for comparison with
`composedHash`. -/
def composedHashDistinct (isPrim : String → Bool) (env : String → Nat)
    (s : LcmStruct) : Nat :=
  (s.hash + ((hashTerms isPrim s).dedup.map env).sum) % 2 ^ 64

/-- The published-fingerprint expression `(hash << 1) + ((hash >> 63) & 1)`
emitted at `emit_rust.c:421` (and `part_000:242`), in 64-bit modular
arithmetic. -/
def pubFingerprint (h : Nat) : Nat :=
  ((h <<< 1) % 2 ^ 64 + ((h >>> 63) &&& 1)) % 2 ^ 64

/-- Rotation left by one bit of a 64-bit value, from the spec's words: the
vacated low bit receives the value's original top bit. -/
def rotl64 (h : Nat) : Nat :=
  (h % 2 ^ 63) * 2 + h / 2 ^ 63

/-- `s` with every member's dimension list replaced according to `fd`
(everything else unchanged). -/
def withDims (s : LcmStruct) (fd : LcmMember → List DimMode) : LcmStruct :=
  { s with members := s.members.map (fun m => { m with dims := fd m }) }

/-- `s` with one extra member appended at the end. -/
def appendMember (s : LcmStruct) (m : LcmMember) : LcmStruct :=
  { s with members := s.members ++ [m] }

/-! ## Identifier transformer -/

/-- `toupper` from `<ctype.h>`, on the ASCII letters that identifiers use. -/
def toupperC (c : Char) : Char :=
  if 'a' ≤ c ∧ c ≤ 'z' then Char.ofNat (c.toNat - 32) else c

/-- `tolower` from `<ctype.h>`, on the ASCII letters that identifiers use. -/
def tolowerC (c : Char) : Char :=
  if 'A' ≤ c ∧ c ≤ 'Z' then Char.ofNat (c.toNat + 32) else c

/-- The camel-casing loop of `make_rust_type_name` in `emit_rust.c:138-154`:
an underscore sets the capitalize flag and emits nothing; any other character
is emitted upper-cased when the flag is set and lower-cased otherwise.  The
flag starts set. -/
def camelLoop : Bool → List Char → List Char
  | _, [] => []
  | b, c :: cs =>
    if c = '_' then camelLoop true cs
    else if b then toupperC c :: camelLoop false cs
    else tolowerC c :: camelLoop false cs

/-- The camel-case transform of `emit_rust.c` (flag initially set). -/
def rustCamel (s : List Char) : List Char := camelLoop true s

/-- The camel-casing loop of `make_rust_type_name` in `part_000:34-49`: same
control flow, but a character after the first of a segment is copied through
unchanged instead of lower-cased. -/
def camelLoopOld : Bool → List Char → List Char
  | _, [] => []
  | b, c :: cs =>
    if c = '_' then camelLoopOld true cs
    else if b then toupperC c :: camelLoopOld false cs
    else c :: camelLoopOld false cs

/-- `strip_underscore_t` from `emit_rust.c:55-67`: drop a trailing `_t` when
the name has at least two characters and ends in it. -/
def strip_underscore_t (s : List Char) : List Char :=
  if 2 ≤ s.length ∧ s.drop (s.length - 2) = ['_', 't'] then
    s.take (s.length - 2)
  else s

/-- `make_rust_type_name` from `emit_rust.c:135-157`: strip a trailing `_t`,
then camel-case with lower-casing of segment remainders. -/
def make_rust_type_name_new (s : List Char) : List Char :=
  rustCamel (strip_underscore_t s)

/-- `make_rust_type_name` from `part_000:31-51`: camel-case directly on the
input, keeping the case of non-initial segment characters. -/
def make_rust_type_name_old (s : List Char) : List Char :=
  camelLoopOld true s

/-- Splitting a character list on underscore, from the spec's words
(section 4.1): consecutive, leading or trailing underscores yield empty
segments. -/
def splitUnderscore : List Char → List (List Char)
  | [] => [[]]
  | c :: cs =>
    if c = '_' then [] :: splitUnderscore cs
    else
      match splitUnderscore cs with
      | seg :: segs => (c :: seg) :: segs
      | [] => [[c]]

/-- Capitalize the first letter of a segment and lower-case the remainder
(spec section 4.1). -/
def capSegment : List Char → List Char
  | [] => []
  | c :: cs => toupperC c :: cs.map tolowerC

/-- `toUpperCamel` as the spec words it: split on underscore, capitalize the
first letter of each segment, lower-case the remainder, concatenate with no
separator. -/
def specUpperCamel (s : List Char) : List Char :=
  ((splitUnderscore s).map capSegment).flatten

/-! ## Marshalling semantics

The Rust that `emit_impl_message_encode`, `emit_impl_message_decode` and
`emit_impl_message_size` emit for a struct is schema-specialized straight-line
code; its meaning is given by schema-directed interpreters over the member
list and each member's dimension list.  At the innermost (zero-dimension)
level the generated code calls `item.encode(..)` / `Message::decode(..)` /
`Message::size(..)` on the member's base type; those base-type codecs live in
the runtime `lcm` crate, which is not part of the provided sources, so they
appear here as an abstract `LeafCodec` per type name, instantiated further
down with codecs modelled from the spec.  Bytes are modelled as `Nat`. -/

/-- A value of the generated Rust type: a leaf of the member's base type, or
a container (fixed-size array or `Vec`) of inner values. -/
inductive Val (α : Type) where
  | leaf : α → Val α
  | arr : List (Val α) → Val α

/-- Equality of values is decidable (the derive handler does not support the
nested occurrence of `Val` under `List`). -/
def Val.decEq {α : Type} [DecidableEq α] : (v w : Val α) → Decidable (v = w)
  | .leaf a, .leaf b =>
    if h : a = b then .isTrue (by rw [h]) else .isFalse (by simp [h])
  | .leaf _, .arr _ => .isFalse (fun h => Val.noConfusion h)
  | .arr _, .leaf _ => .isFalse (fun h => Val.noConfusion h)
  | .arr [], .arr [] => .isTrue rfl
  | .arr [], .arr (_ :: _) => .isFalse (by simp)
  | .arr (_ :: _), .arr [] => .isFalse (by simp)
  | .arr (x :: xs), .arr (y :: ys) =>
    match Val.decEq x y, Val.decEq (.arr xs) (.arr ys) with
    | .isTrue h1, .isTrue h2 => .isTrue (by simp_all)
    | .isFalse h1, _ => .isFalse (by simp_all)
    | _, .isFalse h2 => .isFalse (by simp_all)

instance {α : Type} [DecidableEq α] : DecidableEq (Val α) := Val.decEq

/-- The base-type codec that the generated code invokes at the innermost
level: `encode` writes bytes (failing propagates), `decode` consumes a prefix
of the byte stream, `size` is `Message::size`. -/
structure LeafCodec (α : Type) where
  enc : α → Option (List Nat)
  dec : List Nat → Option (α × List Nat)
  sz : α → Nat

/-- The leaf codec round-trips: decoding right after an encoding consumes
exactly the encoded bytes and returns the encoded value. -/
def EncDecRoundtrip {α : Type} (C : LeafCodec α) : Prop :=
  ∀ a bs r, C.enc a = some bs → C.dec (bs ++ r) = some (a, r)

/-- The leaf codec's size function returns the exact encoded byte count. -/
def SizeAccurate {α : Type} (C : LeafCodec α) : Prop :=
  ∀ a bs, C.enc a = some bs → C.sz a = bs.length

/-- Reading a leaf value as an element count (`self.f as usize` on an
integer-typed size field); `none` on a non-integer value. -/
def valCount {α : Type} (cnt : α → Option Nat) : Val α → Option Nat
  | .leaf a => cnt a
  | .arr _ => none

/-- Look a field name up in an association list of fields and read its value
as a count. -/
def lookupCount {α : Type} (cnt : α → Option Nat)
    (fields : List (String × Val α)) (f : String) : Option Nat :=
  match fields.find? (fun p => p.1 == f) with
  | some p => valCount cnt p.2
  | none => none

/-- Encode a list of inner values left to right, concatenating their bytes
and failing as soon as one fails (the nested `for` loops of
`emit_impl_message_encode` with `?` on each innermost write). -/
def encodeList {α : Type} (enc1 : Val α → Option (List Nat)) :
    List (Val α) → Option (List Nat)
  | [] => some []
  | x :: xs => do
    let b ← enc1 x
    let bs ← encodeList enc1 xs
    some (b ++ bs)

/-- The encoding of one member, by recursion over its dimension list
(`emit_rust.c:429-448`).  A `CONST` dimension iterates the whole fixed-size
container; a `VAR` dimension first checks
`self.f as usize > item.len()` (returning an error if so) and then iterates
`item.iter().take(self.f as usize)`.  At zero dimensions the leaf encoder
runs.  `sizeOf` reads `self.f` for the containing instance. -/
def encodeVal {α : Type} (C : LeafCodec α) (sizeOf : String → Option Nat) :
    List DimMode → Val α → Option (List Nat)
  | [], v =>
    match v with
    | .leaf a => C.enc a
    | .arr _ => none
  | .constDim _ :: ds, v =>
    match v with
    | .arr xs => encodeList (encodeVal C sizeOf ds) xs
    | .leaf _ => none
  | .varDim f :: ds, v =>
    match v with
    | .arr xs =>
      match sizeOf f with
      | none => none
      | some n =>
        if n > xs.length then none
        else encodeList (encodeVal C sizeOf ds) (xs.take n)
    | .leaf _ => none

/-- Decode exactly `n` inner values sequentially (`(0..n).map(|_| ..)` with
fail-fast `collect::<Result<_>>`, or the `n`-element array literal emitted
for a `CONST` dimension). -/
def decodeN {α : Type} (dec1 : List Nat → Option (Val α × List Nat)) :
    Nat → List Nat → Option (List (Val α) × List Nat)
  | 0, bs => some ([], bs)
  | n + 1, bs => do
    let (x, bs1) ← dec1 bs
    let (xs, bs2) ← decodeN dec1 n bs1
    some (x :: xs, bs2)

/-- The decoding of one member, by recursion over its dimension list
(`emit_impl_message_decode_recursive`, `emit_rust.c:455-494`).  A `CONST`
dimension decodes exactly its literal count of elements; a `VAR` dimension
reads the count from the named local variable — the previously decoded
sibling field — via `lookup`, and decodes that many elements.  At zero
dimensions the leaf decoder runs. -/
def decodeVal {α : Type} (C : LeafCodec α) (lookup : String → Option Nat) :
    List DimMode → List Nat → Option (Val α × List Nat)
  | [], bs =>
    match C.dec bs with
    | some (a, r) => some (.leaf a, r)
    | none => none
  | .constDim n :: ds, bs =>
    match decodeN (decodeVal C lookup ds) n bs with
    | some (xs, r) => some (.arr xs, r)
    | none => none
  | .varDim f :: ds, bs =>
    match lookup f with
    | none => none
    | some n =>
      match decodeN (decodeVal C lookup ds) n bs with
      | some (xs, r) => some (.arr xs, r)
      | none => none

/-- The serialized size of one member (`emit_impl_message_size`,
`emit_rust.c:524-546`): a scalar is `self.m.size()`; an array member is
`self.m.iter()` followed by one `flat_map` per further dimension, then
`.map(Message::size).sum()` — it iterates every element actually present in
the containers, at every level. -/
def sizeVal {α : Type} (C : LeafCodec α) : List DimMode → Val α → Nat
  | [], v =>
    match v with
    | .leaf a => C.sz a
    | .arr _ => 0
  | _ :: ds, v =>
    match v with
    | .arr xs => (xs.map (sizeVal C ds)).sum
    | .leaf _ => 0

/-- Struct-level encode (`emit_impl_message_encode`): members encoded
strictly in declared order, bytes concatenated, first failure aborting. -/
def encodeMembers {α : Type} (tc : String → LeafCodec α)
    (sizeOf : String → Option Nat) :
    List LcmMember → List (Val α) → Option (List Nat)
  | [], _ => some []
  | _ :: _, [] => none
  | m :: ms, v :: vs => do
    let b ← encodeVal (tc m.typename) sizeOf m.dims v
    let bs ← encodeMembers tc sizeOf ms vs
    some (b ++ bs)

/-- The fields of an instance, as an association list in declared order. -/
def fieldsOf {α : Type} (s : LcmStruct) (vals : List (Val α)) :
    List (String × Val α) :=
  (s.members.map (fun m => m.membername)).zip vals

/-- The synthesized `encode` of a struct applied to an instance: `self.f`
inside the member loops reads the instance's own fields. -/
def encodeStruct {α : Type} (tc : String → LeafCodec α)
    (cnt : α → Option Nat) (s : LcmStruct) (vals : List (Val α)) :
    Option (List Nat) :=
  encodeMembers tc (lookupCount cnt (fieldsOf s vals)) s.members vals

/-- Struct-level decode (`emit_impl_message_decode`): members decoded
strictly in declared order, each bound with `let <name> = ..;`, so a `VAR`
dimension's count lookup sees exactly the previously decoded members. -/
def decodeMembers {α : Type} (tc : String → LeafCodec α)
    (cnt : α → Option Nat) :
    List LcmMember → List (String × Val α) → List Nat →
    Option (List (Val α) × List Nat)
  | [], _, bs => some ([], bs)
  | m :: ms, env, bs => do
    let (v, bs1) ← decodeVal (tc m.typename) (lookupCount cnt env) m.dims bs
    let (vs, bs2) ← decodeMembers tc cnt ms (env ++ [(m.membername, v)]) bs1
    some (v :: vs, bs2)

/-- The synthesized `decode` of a struct: starts with no locals bound. -/
def decodeStruct {α : Type} (tc : String → LeafCodec α)
    (cnt : α → Option Nat) (s : LcmStruct) (bs : List Nat) :
    Option (List (Val α) × List Nat) :=
  decodeMembers tc cnt s.members [] bs

/-- The synthesized `size` of a struct applied to an instance: the sum of the
members' sizes. -/
def sizeStruct {α : Type} (tc : String → LeafCodec α) (s : LcmStruct)
    (vals : List (Val α)) : Nat :=
  ((s.members.zip vals).map (fun p => sizeVal (tc p.1.typename) p.1.dims p.2)).sum

/-- The field names a dimension list reads counts from. -/
def varRefsDims : List DimMode → List String
  | [] => []
  | .constDim _ :: ds => varRefsDims ds
  | .varDim f :: ds => f :: varRefsDims ds

/-- Every `VAR` dimension of every member references a member declared
earlier (the dependency order that the generated `decode`'s sequential `let`
bindings require). -/
def depOrderedAux (earlier : List String) : List LcmMember → Bool
  | [] => true
  | m :: ms =>
    (varRefsDims m.dims).all (fun f => earlier.contains f) &&
      depOrderedAux (earlier ++ [m.membername]) ms

/-- Some member's outermost dimension is `VAR` and references a name that no
earlier member declares — the generated `decode` then mentions an unbound
local. -/
def hasUnresolvedOuterVar (earlier : List String) : List LcmMember → Bool
  | [] => false
  | m :: ms =>
    (match m.dims with
     | .varDim f :: _ => !(earlier.contains f)
     | _ => false)
    || hasUnresolvedOuterVar (earlier ++ [m.membername]) ms

/-- A value fits its dimension list exactly: fixed-size containers hold their
literal count, and every `Vec` holds exactly the current value of its
referenced size field. -/
def exactFitB {α : Type} (sizeOf : String → Option Nat) :
    List DimMode → Val α → Bool
  | [], v =>
    match v with
    | .leaf _ => true
    | .arr _ => false
  | .constDim n :: ds, v =>
    match v with
    | .arr xs => xs.length == n && xs.all (fun x => exactFitB sizeOf ds x)
    | .leaf _ => false
  | .varDim f :: ds, v =>
    match v with
    | .arr xs =>
      (match sizeOf f with
       | some m => xs.length == m
       | none => false)
      && xs.all (fun x => exactFitB sizeOf ds x)
    | .leaf _ => false

/-- An instance fits a struct exactly: one value per member and each value
fits its member's dimensions, counts read from the instance itself. -/
def instanceFitB {α : Type} (cnt : α → Option Nat)
    (s : LcmStruct) (vals : List (Val α)) : Bool :=
  s.members.length == vals.length &&
    (s.members.zip vals).all
      (fun p => exactFitB (lookupCount cnt (fieldsOf s vals)) p.1.dims p.2)

/-! ## Concrete leaf codecs, modelled from the spec

The runtime `lcm` crate's `Message` implementations for the primitive types
are not part of the provided sources.  Modelled from the spec (section 4.3):
the innermost level invokes "the member's base-type encoder
(primitive-specific fixed/variable-width binary encoding)".  Two
representative primitives suffice for the claims: a fixed-width one-byte
integer (`byte`/`u8`) and a variable-width length-prefixed string. -/

/-- A primitive leaf value: an integer (usable as a size field) or a string
(a variable-length byte sequence). -/
inductive Prim where
  | pint (n : Nat)
  | pstr (s : List Nat)
deriving DecidableEq, Repr

/-- Modelled from the spec: the fixed-width codec of the one-byte integer
primitive (`byte`/`u8`) from the runtime `lcm` crate, absent from the
sources. -/
def byteCodec : LeafCodec Prim where
  enc a :=
    match a with
    | .pint n => if n < 256 then some [n] else none
    | .pstr _ => none
  dec bs :=
    match bs with
    | b :: r => some (.pint b, r)
    | [] => none
  sz _ := 1

/-- Modelled from the spec: the variable-width codec of the `string`
primitive from the runtime `lcm` crate, absent from the sources — a
length prefix followed by the contents. -/
def strCodec : LeafCodec Prim where
  enc a :=
    match a with
    | .pstr s => some (s.length :: s)
    | .pint _ => none
  dec bs :=
    match bs with
    | n :: r => if n ≤ r.length then some (.pstr (r.take n), r.drop n) else none
    | [] => none
  sz a :=
    match a with
    | .pstr s => s.length + 1
    | .pint _ => 0

/-- A codec on which every operation fails; stands for type names whose codec
the model does not provide.  Its laws hold vacuously. -/
def noneCodec : LeafCodec Prim where
  enc _ := none
  dec _ := none
  sz _ := 0

/-- The modelled assignment of leaf codecs to base-type names. -/
def tcP (t : String) : LeafCodec Prim :=
  if t == "byte" then byteCodec
  else if t == "string" then strCodec
  else noneCodec

/-- Reading a modelled primitive as an element count. -/
def cntP : Prim → Option Nat
  | .pint n => some n
  | .pstr _ => none

/-! ## Concrete instances used in counterexamples and witnesses -/

/-- A struct with two members of the same foreign struct type `p.b_t`, one of
them wrapped in a variable dimension. -/
def hashDupStruct : LcmStruct :=
  { shortname := "a_t", lctypename := "p.a_t", hash := 0,
    members := [ { membername := "x", typename := "p.b_t", dims := [] },
                 { membername := "y", typename := "p.b_t",
                   dims := [.varDim "n"] } ] }

/-- A hash environment giving the referenced type `p.b_t` the hash 1. -/
def hashDupEnv : String → Nat := fun t => if t == "p.b_t" then 1 else 0

/-- A hash environment giving the foreign type `p.c_t` the hash 7. -/
def hashRefEnv : String → Nat := fun t => if t == "p.c_t" then 7 else 0

/-- A scalar member of a foreign struct type. -/
def foreignMember : LcmMember :=
  { membername := "z", typename := "p.c_t", dims := [] }

/-- A scalar member of a primitive type. -/
def primMember : LcmMember :=
  { membername := "k", typename := "int8_t", dims := [] }

/-- A size environment declaring the size field `n` to hold 1. -/
def oneSizeEnv : String → Option Nat := fun g => if g == "n" then some 1 else none

/-- A struct whose variable-dimension member is declared before the size
field it references. -/
def outOfOrderStruct : LcmStruct :=
  { shortname := "s", lctypename := "p.s", hash := 0,
    members := [ { membername := "v", typename := "byte",
                   dims := [.varDim "n"] },
                 { membername := "n", typename := "byte", dims := [] } ] }

/-- The same two fields in dependency order: size field first. -/
def countVecStruct : LcmStruct :=
  { shortname := "s", lctypename := "p.s", hash := 0,
    members := [ { membername := "n", typename := "byte", dims := [] },
                 { membername := "v", typename := "byte",
                   dims := [.varDim "n"] } ] }

/-- An instance of `countVecStruct` whose container holds one element while
the size field declares zero. -/
def mismatchVals : List (Val Prim) :=
  [.leaf (.pint 0), .arr [.leaf (.pint 5)]]

/-- An instance of `countVecStruct` whose container holds two elements while
the size field declares one. -/
def longVals : List (Val Prim) :=
  [.leaf (.pint 1), .arr [.leaf (.pint 2), .leaf (.pint 3)]]

/-- A size field and a variable-length array of strings. -/
def countStrStruct : LcmStruct :=
  { shortname := "s", lctypename := "p.s", hash := 0,
    members := [ { membername := "n", typename := "byte", dims := [] },
                 { membername := "v", typename := "string",
                   dims := [.varDim "n"] } ] }

/-- An exact-fit instance of `countStrStruct` holding two strings of
differing lengths. -/
def strVals : List (Val Prim) :=
  [.leaf (.pint 2), .arr [.leaf (.pstr [7]), .leaf (.pstr [8, 9])]]

/-- A size field and a nested `Vec<[byte; 2]>`-shaped member. -/
def countNestedStruct : LcmStruct :=
  { shortname := "s", lctypename := "p.s", hash := 0,
    members := [ { membername := "n", typename := "byte", dims := [] },
                 { membername := "w", typename := "byte",
                   dims := [.varDim "n", .constDim 2] } ] }

/-- An exact-fit instance of `countNestedStruct`: two inner pairs. -/
def nestedVals : List (Val Prim) :=
  [.leaf (.pint 2),
   .arr [.arr [.leaf (.pint 1), .leaf (.pint 2)],
         .arr [.leaf (.pint 3), .leaf (.pint 4)]]]

/-! ## Helper lemmas: fingerprint arithmetic -/

theorem foldl_mod_add (env : String → Nat) :
    ∀ (l : List String) (a : Nat),
      l.foldl (fun h t => (h + env t) % 2 ^ 64) (a % 2 ^ 64) =
        (a + (l.map env).sum) % 2 ^ 64 := by
  intro l
  induction l with
  | nil => intro a; simp
  | cons t l ih =>
    intro a
    simp only [List.foldl_cons, List.map_cons, List.sum_cons]
    rw [Nat.mod_add_mod, ih (a + env t), Nat.add_assoc]

theorem hashTerms_withDims (isPrim : String → Bool) (s : LcmStruct)
    (fd : LcmMember → List DimMode) :
    hashTerms isPrim (withDims s fd) = hashTerms isPrim s := by
  unfold hashTerms withDims
  rw [List.filter_map, List.map_map]
  rfl

theorem hashTerms_appendMember (isPrim : String → Bool) (s : LcmStruct)
    (m : LcmMember) :
    hashTerms isPrim (appendMember s m) =
      hashTerms isPrim s ++
        (if !(isPrim m.typename) && m.typename != s.lctypename
         then [m.typename] else []) := by
  unfold hashTerms appendMember
  rw [List.filter_append, List.map_append]
  by_cases h : (!(isPrim m.typename) && m.typename != s.lctypename) = true
  · simp [h]
  · simp [List.filter_cons, h]

/-! ## Claim theorems: fingerprint -/

/-- C1 (counterexample): for a struct with two members of the same foreign
struct type, the hash computation emitted for the generated `hash()` adds the
referenced type's hash twice, so it differs from the claimed
one-term-per-distinct-type composition. -/
theorem composed_hash_counts_duplicate_member_types :
    composedHash lcm_is_primitive_type hashDupEnv hashDupStruct = 2 ∧
    composedHashDistinct lcm_is_primitive_type hashDupEnv hashDupStruct = 1 := by
  constructor <;> rfl

/-- C1 (amended): the composed hash emitted for the generated `hash()` adds
to the struct's base hash the hash of the base type of every member whose
type is a user-defined struct other than the struct itself — once per such
member, so a type used by several members contributes once for each — and is
unchanged by arbitrary replacement of any member's dimension list. -/
theorem composed_hash_once_per_referencing_member (isPrim : String → Bool)
    (env : String → Nat) (s : LcmStruct) (fd : LcmMember → List DimMode) :
    composedHash isPrim env s =
      (s.hash +
        ((s.members.filter
            (fun m => !(isPrim m.typename) && m.typename != s.lctypename)).map
          (fun m => env m.typename)).sum) % 2 ^ 64 ∧
    composedHash isPrim env (withDims s fd) = composedHash isPrim env s := by
  constructor
  · unfold composedHash
    rw [foldl_mod_add]
    unfold hashTerms
    rw [List.map_map]
    rfl
  · unfold composedHash
    rw [hashTerms_withDims]
    rfl

/-- C7: the published-fingerprint expression `(hash << 1) + ((hash >> 63) & 1)`
emitted by both generations, evaluated in 64-bit modular arithmetic, rotates
any 64-bit value left by one bit, the vacated low bit receiving the original
top bit. -/
theorem published_fingerprint_is_rotl (h : Nat) (hh : h < 2 ^ 64) :
    pubFingerprint h = rotl64 h := by
  unfold pubFingerprint rotl64
  rw [Nat.shiftLeft_eq, Nat.shiftRight_eq_div_pow, Nat.and_one_is_mod]
  have hq : h / 2 ^ 63 < 2 := by omega
  rw [Nat.mod_eq_of_lt hq]
  have hdm := Nat.div_add_mod h (2 ^ 63)
  have h1 : h * 2 ^ 1 = 2 * h := by ring
  rw [h1]
  omega

/-- C7 (witness): the rotation equation evaluated at a value with the top bit
set. -/
theorem published_fingerprint_is_rotl_witness :
    pubFingerprint (2 ^ 63 + 5) = rotl64 (2 ^ 63 + 5) :=
  published_fingerprint_is_rotl (2 ^ 63 + 5) (by norm_num)

/-- C8: appending a member whose base type is primitive or is the struct's
own type leaves the emitted hash computation unchanged; appending a member
whose base type is a user-defined struct other than the struct itself adds
exactly one wrapping add of that type's hash. -/
theorem hash_term_only_for_foreign_struct_members (isPrim : String → Bool)
    (env : String → Nat) (s : LcmStruct) (m : LcmMember) :
    ((isPrim m.typename = true ∨ m.typename = s.lctypename) →
      composedHash isPrim env (appendMember s m) = composedHash isPrim env s) ∧
    (isPrim m.typename = false → m.typename ≠ s.lctypename →
      composedHash isPrim env (appendMember s m) =
        (composedHash isPrim env s + env m.typename) % 2 ^ 64) := by
  constructor
  · intro hcond
    unfold composedHash
    rw [hashTerms_appendMember]
    have : (!(isPrim m.typename) && m.typename != s.lctypename) = false := by
      rcases hcond with hp | he
      · simp [hp]
      · simp [he]
    rw [this]
    simp [appendMember]
  · intro hp hne
    unfold composedHash
    rw [hashTerms_appendMember]
    have : (!(isPrim m.typename) && m.typename != s.lctypename) = true := by
      simp [hp, hne]
    rw [this]
    rw [List.foldl_append]
    rfl

/-- C8 (witness): both cases of the appended-member hash characterization,
at concrete structs: a primitive member adds nothing, a foreign struct member
adds one term. -/
theorem hash_term_only_for_foreign_struct_members_witness :
    composedHash lcm_is_primitive_type hashRefEnv
        (appendMember hashDupStruct primMember) =
      composedHash lcm_is_primitive_type hashRefEnv hashDupStruct ∧
    composedHash lcm_is_primitive_type hashRefEnv
        (appendMember hashDupStruct foreignMember) =
      (composedHash lcm_is_primitive_type hashRefEnv hashDupStruct +
        hashRefEnv "p.c_t") % 2 ^ 64 :=
  ⟨(hash_term_only_for_foreign_struct_members lcm_is_primitive_type hashRefEnv
      hashDupStruct primMember).1 (Or.inl (by decide)),
   (hash_term_only_for_foreign_struct_members lcm_is_primitive_type hashRefEnv
      hashDupStruct foreignMember).2 (by decide) (by decide)⟩

/-! ## Helper lemmas: identifier transformer -/

theorem splitUnderscore_ne_nil (s : List Char) : splitUnderscore s ≠ [] := by
  cases s with
  | nil => simp [splitUnderscore]
  | cons c cs =>
    unfold splitUnderscore
    by_cases hc : c = '_'
    · simp [hc]
    · simp only [if_neg hc]
      cases splitUnderscore cs <;> simp

theorem camelLoop_spec (s : List Char) :
    camelLoop true s = ((splitUnderscore s).map capSegment).flatten ∧
    camelLoop false s =
      (splitUnderscore s).headI.map tolowerC ++
        (((splitUnderscore s).tail).map capSegment).flatten := by
  induction s with
  | nil => simp [camelLoop, splitUnderscore, capSegment]
  | cons c cs ih =>
    by_cases hc : c = '_'
    · subst hc
      simp only [camelLoop, splitUnderscore, if_pos rfl]
      constructor
      · simpa using ih.1
      · simpa using ih.1
    · obtain ⟨seg, segs, hsplit⟩ :
          ∃ seg segs, splitUnderscore cs = seg :: segs := by
        cases h : splitUnderscore cs with
        | nil => exact absurd h (splitUnderscore_ne_nil cs)
        | cons seg segs => exact ⟨seg, segs, rfl⟩
      have hstep : splitUnderscore (c :: cs) = (c :: seg) :: segs := by
        unfold splitUnderscore
        rw [if_neg hc, hsplit]
      have ih2 := ih.2
      rw [hsplit] at ih2
      simp only [List.headI, List.tail] at ih2
      constructor
      · simp only [camelLoop, if_neg hc, if_pos rfl, hstep, List.map_cons,
          List.flatten_cons, capSegment]
        rw [ih2]
        simp
      · simp only [camelLoop, if_neg hc, hstep, List.map_cons, List.headI,
          List.tail]
        rw [ih2]
        simp

theorem camelLoops_agree (s : List Char)
    (hup : ∀ c ∈ s, ¬('A' ≤ c ∧ c ≤ 'Z')) :
    ∀ b, camelLoopOld b s = camelLoop b s := by
  induction s with
  | nil => intro b; rfl
  | cons c cs ih =>
    intro b
    have hc' : ∀ x ∈ cs, ¬('A' ≤ x ∧ x ≤ 'Z') :=
      fun x hx => hup x (List.mem_cons_of_mem c hx)
    have hlc : tolowerC c = c := by
      unfold tolowerC
      rw [if_neg (hup c (List.mem_cons_self c cs))]
    by_cases hc : c = '_'
    · simp only [camelLoopOld, camelLoop, if_pos hc]
      exact ih hc' true
    · cases b <;> simp [camelLoopOld, camelLoop, if_neg hc, hlc, ih hc' false]

/-! ## Claim theorems: identifier transformer -/

/-- C9: the camel-case loop of `make_rust_type_name` computes exactly the
spec's transform — split on underscore, capitalize the first letter of each
segment, lower-case the remainder, concatenate — and maps `foo_bar` to
`FooBar`. -/
theorem camel_case_matches_spec :
    (∀ s : List Char, rustCamel s = specUpperCamel s) ∧
    rustCamel "foo_bar".data = "FooBar".data := by
  constructor
  · intro s
    exact (camelLoop_spec s).1
  · decide

/-- C10 (counterexample): the two generations of `make_rust_type_name`
disagree on `pose_t` — the older one yields `PoseT`, the newer one strips the
`_t` suffix and yields `Pose`. -/
theorem type_name_generations_differ_on_pose_t :
    make_rust_type_name_old "pose_t".data = "PoseT".data ∧
    make_rust_type_name_new "pose_t".data = "Pose".data ∧
    make_rust_type_name_old "pose_t".data ≠
      make_rust_type_name_new "pose_t".data := by
  refine ⟨by decide, by decide, by decide⟩

/-- C10 (amended): the two generations agree exactly on identifiers that
contain no upper-case ASCII letter and do not end in `_t`; in general they
differ (the newer one strips a trailing `_t` and lower-cases segment
remainders, the older one does neither). -/
theorem type_name_generations_agree_without_uppercase_and_suffix
    (s : List Char)
    (hup : ∀ c ∈ s, ¬('A' ≤ c ∧ c ≤ 'Z'))
    (hsuf : ¬(2 ≤ s.length ∧ s.drop (s.length - 2) = ['_', 't'])) :
    make_rust_type_name_old s = make_rust_type_name_new s := by
  unfold make_rust_type_name_old make_rust_type_name_new rustCamel
    strip_underscore_t
  rw [if_neg hsuf]
  exact camelLoops_agree s hup true

/-- C10 (witness): the agreement theorem applied to `foo_bar`. -/
theorem type_name_generations_agree_witness :
    make_rust_type_name_old "foo_bar".data =
      make_rust_type_name_new "foo_bar".data :=
  type_name_generations_agree_without_uppercase_and_suffix "foo_bar".data
    (by decide) (by decide)

/-! ## Helper lemmas: marshalling, element lists -/

theorem encodeList_nil_inv {α : Type} (enc1 : Val α → Option (List Nat))
    (bs : List Nat) (h : encodeList enc1 [] = some bs) : bs = [] := by
  simp [encodeList] at h
  exact h

theorem encodeList_cons_inv {α : Type} (enc1 : Val α → Option (List Nat))
    (x : Val α) (xs : List (Val α)) (bs : List Nat)
    (h : encodeList enc1 (x :: xs) = some bs) :
    ∃ b bs2, enc1 x = some b ∧ encodeList enc1 xs = some bs2 ∧
      bs = b ++ bs2 := by
  simp only [encodeList] at h
  cases hb : enc1 x with
  | none => rw [hb] at h; simp at h
  | some b =>
    rw [hb] at h
    cases hbs2 : encodeList enc1 xs with
    | none => rw [hbs2] at h; simp at h
    | some bs2 =>
      rw [hbs2] at h
      simp at h
      exact ⟨b, bs2, rfl, rfl, h.symm⟩

theorem decodeN_encodeList {α : Type} (enc1 : Val α → Option (List Nat))
    (dec1 : List Nat → Option (Val α × List Nat)) :
    ∀ (xs : List (Val α)) (bs rest : List Nat),
      (∀ x ∈ xs, ∀ b r, enc1 x = some b → dec1 (b ++ r) = some (x, r)) →
      encodeList enc1 xs = some bs →
      decodeN dec1 xs.length (bs ++ rest) = some (xs, rest) := by
  intro xs
  induction xs with
  | nil =>
    intro bs rest _ henc
    rw [encodeList_nil_inv enc1 bs henc]
    simp [decodeN]
  | cons x xs ih =>
    intro bs rest hx henc
    obtain ⟨b, bs2, hb, hbs2, rfl⟩ := encodeList_cons_inv enc1 x xs bs henc
    simp only [List.length_cons, decodeN, List.append_assoc]
    rw [hx x (List.mem_cons_self x xs) b (bs2 ++ rest) hb]
    simp only [Option.bind_eq_bind, Option.some_bind]
    rw [ih bs2 rest (fun y hy b' r' => hx y (List.mem_cons_of_mem x hy) b' r')
      hbs2]
    simp

theorem encodeList_isSome {α : Type} (enc1 : Val α → Option (List Nat)) :
    ∀ xs : List (Val α), (∀ x ∈ xs, (enc1 x).isSome) →
      (encodeList enc1 xs).isSome := by
  intro xs
  induction xs with
  | nil => intro _; simp [encodeList]
  | cons x xs ih =>
    intro hx
    have h1 : (enc1 x).isSome := hx x (List.mem_cons_self x xs)
    have h2 := ih (fun y hy => hx y (List.mem_cons_of_mem x hy))
    obtain ⟨b, hb⟩ := Option.isSome_iff_exists.mp h1
    obtain ⟨bs, hbs⟩ := Option.isSome_iff_exists.mp h2
    simp [encodeList, hb, hbs]

theorem sizeList_encodeList {α : Type} (enc1 : Val α → Option (List Nat))
    (szf : Val α → Nat) :
    ∀ (xs : List (Val α)) (bs : List Nat),
      (∀ x ∈ xs, ∀ b, enc1 x = some b → szf x = b.length) →
      encodeList enc1 xs = some bs →
      (xs.map szf).sum = bs.length := by
  intro xs
  induction xs with
  | nil =>
    intro bs _ henc
    rw [encodeList_nil_inv enc1 bs henc]
    simp
  | cons x xs ih =>
    intro bs hx henc
    obtain ⟨b, bs2, hb, hbs2, rfl⟩ := encodeList_cons_inv enc1 x xs bs henc
    simp only [List.map_cons, List.sum_cons, List.length_append]
    rw [hx x (List.mem_cons_self x xs) b hb,
      ih bs2 (fun y hy b' => hx y (List.mem_cons_of_mem x hy) b') hbs2]

/-! ## Helper lemmas: marshalling, one member's dimension list -/

theorem decodeVal_encodeVal {α : Type} (C : LeafCodec α)
    (sizeOf lookup : String → Option Nat) (hC : EncDecRoundtrip C) :
    ∀ (ds : List DimMode) (v : Val α) (bs rest : List Nat),
      (∀ f ∈ varRefsDims ds, lookup f = sizeOf f) →
      exactFitB sizeOf ds v = true →
      encodeVal C sizeOf ds v = some bs →
      decodeVal C lookup ds (bs ++ rest) = some (v, rest) := by
  intro ds
  induction ds with
  | nil =>
    intro v bs rest _ hfit henc
    cases v with
    | leaf a =>
      simp only [encodeVal] at henc
      simp only [decodeVal]
      rw [hC a bs rest henc]
    | arr xs => simp [exactFitB] at hfit
  | cons d ds ih =>
    intro v bs rest href hfit henc
    cases d with
    | constDim n =>
      cases v with
      | leaf a => simp [exactFitB] at hfit
      | arr xs =>
        simp only [exactFitB, Bool.and_eq_true, beq_iff_eq,
          List.all_eq_true] at hfit
        obtain ⟨hlen, hall⟩ := hfit
        simp only [encodeVal] at henc
        have hrefs : ∀ f ∈ varRefsDims ds, lookup f = sizeOf f := by
          intro f hf
          exact href f (by simp [varRefsDims, hf])
        have hdec := decodeN_encodeList (encodeVal C sizeOf ds)
          (decodeVal C lookup ds) xs bs rest
          (fun x hx b r hb => ih x b r hrefs (hall x hx) hb) henc
        simp only [decodeVal]
        rw [← hlen, hdec]
    | varDim f0 =>
      cases v with
      | leaf a => simp [exactFitB] at hfit
      | arr xs =>
        simp only [exactFitB, Bool.and_eq_true, List.all_eq_true] at hfit
        obtain ⟨hm, hall⟩ := hfit
        cases hs : sizeOf f0 with
        | none => rw [hs] at hm; simp at hm
        | some m =>
          rw [hs] at hm
          have hlen : xs.length = m := by simpa using hm
          simp only [encodeVal, hs] at henc
          rw [if_neg (by omega)] at henc
          rw [← hlen, List.take_length] at henc
          have hlf : lookup f0 = some m := by
            rw [href f0 (by simp [varRefsDims]), hs]
          have hrefs : ∀ g ∈ varRefsDims ds, lookup g = sizeOf g := by
            intro g hg
            exact href g (by simp [varRefsDims, hg])
          have hdec := decodeN_encodeList (encodeVal C sizeOf ds)
            (decodeVal C lookup ds) xs bs rest
            (fun x hx b r hb => ih x b r hrefs (hall x hx) hb) henc
          simp only [decodeVal, hlf]
          rw [← hlen, hdec]

theorem sizeVal_encodeVal {α : Type} (C : LeafCodec α)
    (sizeOf : String → Option Nat) (hC : SizeAccurate C) :
    ∀ (ds : List DimMode) (v : Val α) (bs : List Nat),
      exactFitB sizeOf ds v = true →
      encodeVal C sizeOf ds v = some bs →
      sizeVal C ds v = bs.length := by
  intro ds
  induction ds with
  | nil =>
    intro v bs hfit henc
    cases v with
    | leaf a =>
      simp only [encodeVal] at henc
      simp only [sizeVal]
      exact hC a bs henc
    | arr xs => simp [exactFitB] at hfit
  | cons d ds ih =>
    intro v bs hfit henc
    cases d with
    | constDim n =>
      cases v with
      | leaf a => simp [exactFitB] at hfit
      | arr xs =>
        simp only [exactFitB, Bool.and_eq_true, beq_iff_eq,
          List.all_eq_true] at hfit
        obtain ⟨_, hall⟩ := hfit
        simp only [encodeVal] at henc
        simp only [sizeVal]
        exact sizeList_encodeList (encodeVal C sizeOf ds) (sizeVal C ds) xs bs
          (fun x hx b hb => ih x b (hall x hx) hb) henc
    | varDim f0 =>
      cases v with
      | leaf a => simp [exactFitB] at hfit
      | arr xs =>
        simp only [exactFitB, Bool.and_eq_true, List.all_eq_true] at hfit
        obtain ⟨hm, hall⟩ := hfit
        cases hs : sizeOf f0 with
        | none => rw [hs] at hm; simp at hm
        | some m =>
          rw [hs] at hm
          have hlen : xs.length = m := by simpa using hm
          simp only [encodeVal, hs] at henc
          rw [if_neg (by omega)] at henc
          rw [← hlen, List.take_length] at henc
          simp only [sizeVal]
          exact sizeList_encodeList (encodeVal C sizeOf ds) (sizeVal C ds) xs
            bs (fun x hx b hb => ih x b (hall x hx) hb) henc

/-! ## Helper lemmas: field lookup and struct-level marshalling -/

theorem lookupCount_append_left {α : Type} (cnt : α → Option Nat)
    (l l2 : List (String × Val α)) (f : String) (h : ∃ p ∈ l, p.1 = f) :
    lookupCount cnt (l ++ l2) f = lookupCount cnt l f := by
  unfold lookupCount
  cases hfind : l.find? (fun q => q.1 == f) with
  | none =>
    obtain ⟨p, hp, hpf⟩ := h
    have := List.find?_eq_none.mp hfind p hp
    simp [hpf] at this
  | some q =>
    rw [List.find?_append, hfind]
    rfl

theorem lookupCount_eq_none_of_not_mem {α : Type} (cnt : α → Option Nat)
    (l : List (String × Val α)) (f : String)
    (h : ∀ p ∈ l, p.1 ≠ f) : lookupCount cnt l f = none := by
  unfold lookupCount
  rw [List.find?_eq_none.mpr (fun x hx => by simpa using h x hx)]

theorem decodeMembers_encodeMembers {α : Type} (tc : String → LeafCodec α)
    (cnt : α → Option Nat) (sizeOf : String → Option Nat)
    (hrt : ∀ t, EncDecRoundtrip (tc t)) :
    ∀ (ms : List LcmMember) (vs : List (Val α))
      (env : List (String × Val α)) (bs rest : List Nat),
      ms.length = vs.length →
      (∀ f, sizeOf f =
        lookupCount cnt
          (env ++ (ms.map (fun m => m.membername)).zip vs) f) →
      depOrderedAux (env.map (fun p => p.1)) ms = true →
      ((ms.zip vs).all (fun p => exactFitB sizeOf p.1.dims p.2)) = true →
      encodeMembers tc sizeOf ms vs = some bs →
      decodeMembers tc cnt ms env (bs ++ rest) = some (vs, rest) := by
  intro ms
  induction ms with
  | nil =>
    intro vs env bs rest hlen _ _ _ henc
    cases vs with
    | cons v vs => simp at hlen
    | nil =>
      simp only [encodeMembers] at henc
      have hbs : bs = [] := by simpa using henc.symm
      subst hbs
      simp [decodeMembers]
  | cons m ms ih =>
    intro vs env bs rest hlen heq hord hfit henc
    cases vs with
    | nil => simp at hlen
    | cons v vs =>
      simp only [encodeMembers] at henc
      cases hb : encodeVal (tc m.typename) sizeOf m.dims v with
      | none => rw [hb] at henc; simp at henc
      | some b =>
        rw [hb] at henc
        cases hbs2 : encodeMembers tc sizeOf ms vs with
        | none => rw [hbs2] at henc; simp at henc
        | some bs2 =>
          rw [hbs2] at henc
          simp only [Option.bind_eq_bind, Option.some_bind,
            Option.some_inj] at henc
          subst henc
          simp only [depOrderedAux, Bool.and_eq_true, List.all_eq_true]
            at hord
          obtain ⟨hrefs0, hord'⟩ := hord
          simp only [List.zip_cons_cons, List.all_cons, Bool.and_eq_true]
            at hfit
          obtain ⟨hfit0, hfit'⟩ := hfit
          have hagree : ∀ f ∈ varRefsDims m.dims,
              lookupCount cnt env f = sizeOf f := by
            intro f hf
            have hcont := hrefs0 f hf
            have hmem : ∃ p ∈ env, p.1 = f := by
              have hf' : f ∈ env.map (fun p => p.1) := by
                simpa using hcont
              obtain ⟨p, hp, hpf⟩ := List.mem_map.mp hf'
              exact ⟨p, hp, hpf⟩
            rw [heq f, lookupCount_append_left cnt env _ f hmem]
          have hdecv := decodeVal_encodeVal (tc m.typename) sizeOf
            (lookupCount cnt env) (hrt m.typename) m.dims v b (bs2 ++ rest)
            hagree hfit0 hb
          have heq' : ∀ f, sizeOf f =
              lookupCount cnt
                ((env ++ [(m.membername, v)]) ++
                  (ms.map (fun m => m.membername)).zip vs) f := by
            intro f
            rw [heq f]
            congr 1
            simp
          have hord'' :
              depOrderedAux
                ((env ++ [(m.membername, v)]).map (fun p => p.1)) ms
                = true := by
            simpa [List.map_append] using hord'
          have hrec := ih vs (env ++ [(m.membername, v)]) bs2 rest
            (by simpa using hlen) heq' hord''
            (by simpa [List.all_eq_true] using hfit') hbs2
          simp only [decodeMembers, List.append_assoc, hdecv,
            Option.bind_eq_bind, Option.some_bind, hrec]

theorem sizeMembers_encodeMembers {α : Type} (tc : String → LeafCodec α)
    (sizeOf : String → Option Nat) (hsz : ∀ t, SizeAccurate (tc t)) :
    ∀ (ms : List LcmMember) (vs : List (Val α)) (bs : List Nat),
      ((ms.zip vs).all (fun p => exactFitB sizeOf p.1.dims p.2)) = true →
      encodeMembers tc sizeOf ms vs = some bs →
      ((ms.zip vs).map
        (fun p => sizeVal (tc p.1.typename) p.1.dims p.2)).sum = bs.length := by
  intro ms
  induction ms with
  | nil =>
    intro vs bs _ henc
    simp only [encodeMembers] at henc
    have hbs : bs = [] := by simpa using henc.symm
    subst hbs
    simp
  | cons m ms ih =>
    intro vs bs hfit henc
    cases vs with
    | nil => simp [encodeMembers] at henc
    | cons v vs =>
      simp only [encodeMembers] at henc
      cases hb : encodeVal (tc m.typename) sizeOf m.dims v with
      | none => rw [hb] at henc; simp at henc
      | some b =>
        rw [hb] at henc
        cases hbs2 : encodeMembers tc sizeOf ms vs with
        | none => rw [hbs2] at henc; simp at henc
        | some bs2 =>
          rw [hbs2] at henc
          simp only [Option.bind_eq_bind, Option.some_bind,
            Option.some_inj] at henc
          subst henc
          simp only [List.zip_cons_cons, List.all_cons, Bool.and_eq_true]
            at hfit
          obtain ⟨hfit0, hfit'⟩ := hfit
          simp only [List.zip_cons_cons, List.map_cons, List.sum_cons,
            List.length_append]
          rw [sizeVal_encodeVal (tc m.typename) sizeOf (hsz m.typename)
            m.dims v b hfit0 hb, ih vs bs2 hfit' hbs2]

theorem decodeMembers_unresolved_none {α : Type} (tc : String → LeafCodec α)
    (cnt : α → Option Nat) :
    ∀ (ms : List LcmMember) (env : List (String × Val α)) (bs : List Nat),
      hasUnresolvedOuterVar (env.map (fun p => p.1)) ms = true →
      decodeMembers tc cnt ms env bs = none := by
  intro ms
  induction ms with
  | nil => intro env bs h; simp [hasUnresolvedOuterVar] at h
  | cons m ms ih =>
    intro env bs h
    simp only [hasUnresolvedOuterVar, Bool.or_eq_true] at h
    rcases h with hbad | hrec
    · cases hd : m.dims with
      | nil => rw [hd] at hbad; simp at hbad
      | cons d ds =>
        cases d with
        | constDim n => rw [hd] at hbad; simp at hbad
        | varDim f =>
          rw [hd] at hbad
          simp only [Bool.not_eq_eq_eq_not, Bool.not_true] at hbad
          have hnone : lookupCount cnt env f = none := by
            apply lookupCount_eq_none_of_not_mem
            intro p hp hpf
            have : f ∈ env.map (fun q => q.1) :=
              List.mem_map.mpr ⟨p, hp, hpf⟩
            have : (env.map (fun q => q.1)).contains f = true := by
              simpa using this
            rw [this] at hbad
            exact Bool.noConfusion hbad
          simp only [decodeMembers, hd, decodeVal, hnone,
            Option.bind_eq_bind, Option.none_bind]
    · cases hdec : decodeVal (tc m.typename) (lookupCount cnt env) m.dims bs
        with
      | none =>
        simp only [decodeMembers, hdec, Option.bind_eq_bind,
          Option.none_bind]
      | some p =>
        obtain ⟨v, bs1⟩ := p
        have hrec' := ih (env ++ [(m.membername, v)]) bs1
          (by simpa [List.map_append] using hrec)
        simp only [decodeMembers, hdec, Option.bind_eq_bind,
          Option.some_bind, hrec', Option.none_bind]

/-! ## Helper lemmas: the modelled leaf codecs satisfy the codec laws -/

theorem byteCodec_roundtrip : EncDecRoundtrip byteCodec := by
  intro a bs r h
  cases a with
  | pint n =>
    simp only [byteCodec] at h
    by_cases hn : n < 256
    · rw [if_pos hn] at h
      simp only [Option.some_inj] at h
      subst h
      simp [byteCodec]
    · rw [if_neg hn] at h
      exact Option.noConfusion h
  | pstr s => simp [byteCodec] at h

theorem strCodec_roundtrip : EncDecRoundtrip strCodec := by
  intro a bs r h
  cases a with
  | pint n => simp [strCodec] at h
  | pstr s =>
    simp only [strCodec, Option.some_inj] at h
    subst h
    simp only [strCodec, List.cons_append]
    rw [if_pos (by simp)]
    rw [List.take_left, List.drop_left]

theorem noneCodec_roundtrip : EncDecRoundtrip noneCodec := by
  intro a bs r h
  simp [noneCodec] at h

theorem tcP_roundtrip : ∀ t, EncDecRoundtrip (tcP t) := by
  intro t
  unfold tcP
  split
  · exact byteCodec_roundtrip
  · split
    · exact strCodec_roundtrip
    · exact noneCodec_roundtrip

theorem byteCodec_size_accurate : SizeAccurate byteCodec := by
  intro a bs h
  cases a with
  | pint n =>
    simp only [byteCodec] at h
    by_cases hn : n < 256
    · rw [if_pos hn] at h
      simp only [Option.some_inj] at h
      subst h
      rfl
    · rw [if_neg hn] at h
      exact Option.noConfusion h
  | pstr s => simp [byteCodec] at h

theorem strCodec_size_accurate : SizeAccurate strCodec := by
  intro a bs h
  cases a with
  | pint n => simp [strCodec] at h
  | pstr s =>
    simp only [strCodec, Option.some_inj] at h
    subst h
    simp [strCodec]

theorem noneCodec_size_accurate : SizeAccurate noneCodec := by
  intro a bs h
  simp [noneCodec] at h

theorem tcP_size_accurate : ∀ t, SizeAccurate (tcP t) := by
  intro t
  unfold tcP
  split
  · exact byteCodec_size_accurate
  · split
    · exact strCodec_size_accurate
    · exact noneCodec_size_accurate

/-! ## Claim theorems: marshalling -/

/-- C2 (counterexample): for the struct whose variable-length member `v` is
declared before its size field `n`, the synthesized decode fails on the bytes
`[1, 7]` — it does not decode `n` first — while the same fields in dependency
order decode those bytes successfully. -/
theorem decode_out_of_order_concrete_fails :
    decodeStruct tcP cntP outOfOrderStruct [1, 7] = none ∧
    decodeStruct tcP cntP countVecStruct [1, 7] =
      some ([Val.leaf (Prim.pint 1), Val.arr [Val.leaf (Prim.pint 7)]], []) := by
  refine ⟨by decide, rfl⟩

/-- C2 (amended): the synthesized decode binds members strictly in declared
order; when some member's outermost dimension is `VARIABLE` and references a
field no earlier member declares, the emitted code mentions an unbound local,
so decoding fails on every input instead of decoding the size field first. -/
theorem decode_unresolved_var_always_fails {α : Type}
    (tc : String → LeafCodec α) (cnt : α → Option Nat) (s : LcmStruct)
    (hbad : hasUnresolvedOuterVar [] s.members = true) (bs : List Nat) :
    decodeStruct tc cnt s bs = none := by
  unfold decodeStruct
  exact decodeMembers_unresolved_none tc cnt s.members [] bs
    (by simpa using hbad)

/-- C2 (witness): the out-of-order struct fails to decode the bytes
`[2, 5, 5]`. -/
theorem decode_unresolved_var_always_fails_witness :
    decodeStruct tcP cntP outOfOrderStruct [2, 5, 5] = none :=
  decode_unresolved_var_always_fails tcP cntP outOfOrderStruct (by decide)
    [2, 5, 5]

/-- C3: at a `VARIABLE` dimension whose size field currently holds `n`, the
synthesized encode fails when `n` exceeds the container's length; when
`n` is less than or equal to it (and the selected elements themselves
encode), it succeeds and its output is the concatenated encoding of exactly
the first `n` elements — trailing extra elements are not serialized. -/
theorem encode_var_dim_enforces_declared_count {α : Type} (C : LeafCodec α)
    (sizeOf : String → Option Nat) (f : String) (ds : List DimMode)
    (xs : List (Val α)) (n : Nat)
    (hn : sizeOf f = some n)
    (hel : ∀ x ∈ xs.take n, (encodeVal C sizeOf ds x).isSome) :
    (n > xs.length →
      encodeVal C sizeOf (DimMode.varDim f :: ds) (Val.arr xs) = none) ∧
    (n ≤ xs.length → ∃ bs,
      encodeVal C sizeOf (DimMode.varDim f :: ds) (Val.arr xs) = some bs ∧
      encodeList (encodeVal C sizeOf ds) (xs.take n) = some bs ∧
      (xs.take n).length = n) := by
  constructor
  · intro hgt
    simp only [encodeVal, hn]
    rw [if_pos hgt]
  · intro hle
    simp only [encodeVal, hn]
    rw [if_neg (by omega)]
    obtain ⟨bs, hbs⟩ := Option.isSome_iff_exists.mp
      (encodeList_isSome (encodeVal C sizeOf ds) (xs.take n) hel)
    refine ⟨bs, hbs, hbs, ?_⟩
    rw [List.length_take]
    omega

/-- C3 (witness): with the size field holding 1 and a two-element container
of bytes, encoding succeeds and serializes exactly the first element. -/
theorem encode_var_dim_enforces_declared_count_witness :
    ∃ bs,
      encodeVal byteCodec oneSizeEnv [DimMode.varDim "n"]
        (Val.arr [Val.leaf (Prim.pint 2), Val.leaf (Prim.pint 3)]) =
        some bs ∧
      encodeList (encodeVal byteCodec oneSizeEnv [])
        ([Val.leaf (Prim.pint 2), Val.leaf (Prim.pint 3)].take 1) = some bs ∧
      ([Val.leaf (Prim.pint 2), Val.leaf (Prim.pint 3)].take 1).length = 1 :=
  (encode_var_dim_enforces_declared_count byteCodec oneSizeEnv "n" []
    [Val.leaf (Prim.pint 2), Val.leaf (Prim.pint 3)] 1 (by decide)
    (by decide)).2 (by decide)

/-- C4 (counterexample): a container holding more elements (two) than its
size field declares (one) is not an encode error — encoding succeeds and
silently drops the extra element. -/
theorem encode_extra_elements_succeeds :
    lookupCount cntP (fieldsOf countVecStruct longVals) "n" = some 1 ∧
    encodeStruct tcP cntP countVecStruct longVals = some [1, 2] := by
  refine ⟨by decide, by decide⟩

/-- C4 (amended): at a `VARIABLE` dimension whose size field holds `n` and
whose selected elements encode, the synthesized encode fails exactly when the
declared count `n` exceeds the container's length; a container longer than
the declared count is accepted, with the extra elements dropped. -/
theorem encode_var_dim_error_iff_declared_exceeds_length {α : Type}
    (C : LeafCodec α) (sizeOf : String → Option Nat) (f : String)
    (ds : List DimMode) (xs : List (Val α)) (n : Nat)
    (hn : sizeOf f = some n)
    (hel : ∀ x ∈ xs.take n, (encodeVal C sizeOf ds x).isSome) :
    encodeVal C sizeOf (DimMode.varDim f :: ds) (Val.arr xs) = none ↔
      xs.length < n := by
  simp only [encodeVal, hn]
  by_cases hgt : n > xs.length
  · rw [if_pos hgt]
    simp only [true_iff]
    omega
  · rw [if_neg hgt]
    constructor
    · intro hnone
      have := encodeList_isSome (encodeVal C sizeOf ds) (xs.take n) hel
      rw [hnone] at this
      exact Bool.noConfusion this
    · intro hlt
      exact absurd hlt (by omega)

/-- C4 (witness): with a declared count of 1 and an empty container, the
error condition holds on both sides of the equivalence. -/
theorem encode_var_dim_error_iff_witness :
    encodeVal byteCodec oneSizeEnv [DimMode.varDim "n"]
        (Val.arr ([] : List (Val Prim))) = none ↔
      ([] : List (Val Prim)).length < 1 :=
  encode_var_dim_error_iff_declared_exceeds_length byteCodec oneSizeEnv "n"
    [] [] 1 (by decide) (by decide)

/-- C5 (counterexample): for an instance whose container holds one element
while the size field declares zero, the synthesized size routine counts the
stray element (2 bytes) but the synthesized encode writes only the size field
(1 byte), so size differs from the encoded length. -/
theorem size_ne_encode_length_with_extra_element :
    encodeStruct tcP cntP countVecStruct mismatchVals = some [0] ∧
    sizeStruct tcP countVecStruct mismatchVals = 2 ∧
    sizeStruct tcP countVecStruct mismatchVals ≠ List.length [0] := by
  refine ⟨by decide, by decide, by decide⟩

/-- C5 (amended): when every variable-dimension container holds exactly the
declared count (and the leaf size functions are accurate), the synthesized
size routine returns exactly the byte length produced by the synthesized
encode — including for variable-length leaves such as strings of differing
lengths. -/
theorem size_eq_encode_length_of_exact_fit {α : Type}
    (tc : String → LeafCodec α) (cnt : α → Option Nat) (s : LcmStruct)
    (vals : List (Val α)) (bs : List Nat)
    (hsz : ∀ t, SizeAccurate (tc t))
    (hfit : instanceFitB cnt s vals = true)
    (henc : encodeStruct tc cnt s vals = some bs) :
    sizeStruct tc s vals = bs.length := by
  unfold sizeStruct
  unfold encodeStruct at henc
  simp only [instanceFitB, Bool.and_eq_true] at hfit
  exact sizeMembers_encodeMembers tc _ hsz s.members vals bs hfit.2 henc

/-- C5 (witness): the size of an exact-fit instance holding two strings of
differing lengths equals its encoded byte length. -/
theorem size_eq_encode_length_witness :
    sizeStruct tcP countStrStruct strVals =
      List.length [2, 1, 7, 2, 8, 9] :=
  size_eq_encode_length_of_exact_fit tcP cntP countStrStruct strVals
    [2, 1, 7, 2, 8, 9] tcP_size_accurate (by decide) (by decide)

/-- C6 (counterexample): for a directly constructed instance whose container
holds one element while the size field declares zero, encoding succeeds but
decoding the produced bytes yields a different value — the round trip fails. -/
theorem roundtrip_fails_with_extra_element :
    encodeStruct tcP cntP countVecStruct mismatchVals = some [0] ∧
    decodeStruct tcP cntP countVecStruct [0] =
      some ([Val.leaf (Prim.pint 0), Val.arr []], []) ∧
    decodeStruct tcP cntP countVecStruct [0] ≠ some (mismatchVals, []) := by
  refine ⟨by decide, rfl, ?_⟩
  intro h
  injection h with h1
  injection h1 with h2 h3
  simp [mismatchVals] at h2

/-- C6 (amended): when the struct's variable dimensions reference earlier
declared members, every variable-dimension container holds exactly the
declared count, and the leaf codecs round-trip, decoding the bytes produced
by the synthesized encode returns exactly the original instance (and
consumes exactly those bytes) — covering scalar, fixed-array, variable-array
and nested shapes. -/
theorem decode_encode_roundtrip_of_exact_fit {α : Type}
    (tc : String → LeafCodec α) (cnt : α → Option Nat) (s : LcmStruct)
    (vals : List (Val α)) (bs rest : List Nat)
    (hrt : ∀ t, EncDecRoundtrip (tc t))
    (hord : depOrderedAux [] s.members = true)
    (hfit : instanceFitB cnt s vals = true)
    (henc : encodeStruct tc cnt s vals = some bs) :
    decodeStruct tc cnt s (bs ++ rest) = some (vals, rest) := by
  unfold decodeStruct
  unfold encodeStruct at henc
  simp only [instanceFitB, Bool.and_eq_true, beq_iff_eq] at hfit
  exact decodeMembers_encodeMembers tc cnt _ hrt s.members vals [] bs rest
    hfit.1 (fun f => rfl) (by simpa using hord) hfit.2 henc

/-- C6 (witness): a nested `Vec<[byte; 2]>`-shaped instance round-trips, with
trailing bytes left unconsumed. -/
theorem decode_encode_roundtrip_witness :
    decodeStruct tcP cntP countNestedStruct ([2, 1, 2, 3, 4] ++ [9]) =
      some (nestedVals, [9]) :=
  decode_encode_roundtrip_of_exact_fit tcP cntP countNestedStruct nestedVals
    [2, 1, 2, 3, 4] [9] tcP_roundtrip (by decide) (by decide) (by decide)
